import Mathlib

/-!
Verification of the CasADi `Call` / `GenericCall` expression-graph node
(`casadi/core/mx/call.hpp`) against its natural-language specification.

The header declares the node's interface; the few inline bodies
(`numFunctions`, `getFunction`, `getFunctionInput`, `getFunctionOutput`,
`getOp`) are embedded directly from the source.  The remaining operation
bodies (`create`, `projectArg`, `evalMX`, `evalFwd`, `evalAdj`, `spAdj`,
`deepCopyMembers`) are not part of the provided sources, so they are
modelled from the specification text, as marked in each doc comment.
-/

namespace CasadiCall

/-- Sparsity pattern: immutable value describing the nonzero structure of a
matrix-shaped quantity; supports equality and size queries.  `nz` is the
list of structurally nonzero positions. -/
structure Sparsity where
  nrow : Nat
  ncol : Nat
  nz : List (Nat × Nat)
deriving DecidableEq, Repr, Inhabited

/-- Total size (number of entries) of a matrix with this sparsity. -/
def Sparsity.numel (sp : Sparsity) : Nat := sp.nrow * sp.ncol

/-- One dependency fact of a callable: input element `inElem` of input
`inIdx` influences output element `outElem` of output `outIdx`. -/
structure DepEntry where
  inIdx : Nat
  inElem : Nat
  outIdx : Nat
  outElem : Nat
deriving DecidableEq, Repr

/-- Callable-function handle: opaque, reference-counted handle with fixed
input/output sparsities.  `handle` models the identity of the underlying
reference-counted callable (two handles with equal `handle` share one
callable instance).  `isInit` records whether the callable was initialized.
`dep` is the callable's dependency relation, consumed by the bit-sparsity
propagation primitives. -/
structure Function where
  isInit : Bool
  sp_in : List Sparsity
  sp_out : List Sparsity
  handle : Nat
  dep : List DepEntry
deriving DecidableEq, Repr, Inhabited

/-- Expression-graph value (`MX`): a symbolic leaf, a projection/cast node,
or the `oind`-th output-view node of a `Call` node wrapping callable `fcn`
applied to `args`. -/
inductive MX where
  | sym (nm : Nat) (sp : Sparsity)
  | project (x : MX) (sp : Sparsity)
  | callOutput (fcn : Function) (args : List MX) (oind : Nat)

/-- Sparsity carried by a graph value.  A call-output node reports the
callable's declared output sparsity at its output index. -/
def MX.sparsity : MX → Sparsity
  | .sym _ sp => sp
  | .project _ sp => sp
  | .callOutput fcn _ oind => fcn.sp_out.getD oind default

mutual
/-- Structural equality of graph values, standing in for the original-node
identity that keys the already-copied map of the cloning traversal. -/
def MX.beq : MX → MX → Bool
  | .sym n1 s1, .sym n2 s2 => n1 == n2 && s1 == s2
  | .project x1 s1, .project x2 s2 => MX.beq x1 x2 && s1 == s2
  | .callOutput f1 a1 o1, .callOutput f2 a2 o2 =>
    f1 == f2 && MX.beqList a1 a2 && o1 == o2
  | _, _ => false
/-- Structural equality of graph-value lists. -/
def MX.beqList : List MX → List MX → Bool
  | [], [] => true
  | x :: xs, y :: ys => MX.beq x y && MX.beqList xs ys
  | _, _ => false
end

/-- Lookup of a node in the already-copied map
(`std::map<SharedObjectNode*, SharedObject>`), keyed by node identity. -/
def lookupCopy (m : List (MX × MX)) (x : MX) : Option MX :=
  match m with
  | [] => none
  | (a, b) :: rest => if MX.beq a x then some b else lookupCopy rest x

mutual
/-- Modelled from the spec: body of `Call::deepCopyMembers`/`Call::clone`
is not under src/.  The graph-cloning traversal: a node already present in
the supplied already-copied map is reused (copied at most once); otherwise
its argument references are transcribed recursively, the node is rebuilt —
sharing the callable handle, never duplicating the callable itself — and
recorded in the map. -/
def deepCopy (m : List (MX × MX)) : MX → MX × List (MX × MX)
  | .sym n sp =>
    match lookupCopy m (.sym n sp) with
    | some y => (y, m)
    | none => (MX.sym n sp, (MX.sym n sp, MX.sym n sp) :: m)
  | .project a sp =>
    match lookupCopy m (.project a sp) with
    | some y => (y, m)
    | none =>
      let r := deepCopy m a
      (MX.project r.1 sp, (MX.project a sp, MX.project r.1 sp) :: r.2)
  | .callOutput fcn args oind =>
    match lookupCopy m (.callOutput fcn args oind) with
    | some y => (y, m)
    | none =>
      let r := deepCopyList m args
      (MX.callOutput fcn r.1 oind,
        (MX.callOutput fcn args oind, MX.callOutput fcn r.1 oind) :: r.2)
/-- The cloning traversal over an argument list, threading the
already-copied map left to right. -/
def deepCopyList (m : List (MX × MX)) : List MX → List MX × List (MX × MX)
  | [] => ([], m)
  | a :: as =>
    let r := deepCopy m a
    let r2 := deepCopyList r.2 as
    (r.1 :: r2.1, r2.2)
end

/-- The callable handle referenced by a graph value (`some` exactly for
call-output nodes). -/
def MX.callFcn : MX → Option Function
  | .callOutput f _ _ => some f
  | _ => none

/-- A well-formed already-copied map: every recorded copy references the
same callable handle as its original. -/
def mapOk (m : List (MX × MX)) : Prop :=
  ∀ p ∈ m, MX.callFcn p.2 = MX.callFcn p.1

/-- Modelled from the spec: body of `GenericCall::projectArg` is not under
src/ (the header only declares it).  Given an argument graph-value and the
sparsity the callable expects at position `i`: if the value's sparsity
already equals the target it is returned unchanged (no new node); otherwise,
when total sizes are compatible, a projection/cast node is inserted;
mismatched total size is a construction-time error. -/
def GenericCall.projectArg (x : MX) (sp : Sparsity) (i : Nat) : Except String MX :=
  if x.sparsity = sp then .ok x
  else if x.sparsity.numel = sp.numel then .ok (MX.project x sp)
  else .error ("Cannot project argument " ++ toString i)

/-- Modelled from the spec: projection of every argument to the callable's
declared input sparsity, in order, index threaded through. -/
def projectArgs : Nat → List Sparsity → List MX → Except String (List MX)
  | _, [], [] => .ok []
  | i, sp :: sps, x :: xs =>
    match GenericCall.projectArg x sp i, projectArgs (i + 1) sps xs with
    | .ok y, .ok ys => .ok (y :: ys)
    | .error e, _ => .error e
    | _, .error e => .error e
  | _, _, _ => .error "argument count mismatch"

/-- Number of outputs of a `Call` node: the callable's declared output
count (spec §4.2, body not under src/). -/
def Call.nout (fcn : Function) : Nat := fcn.sp_out.length

/-- Sparsity of output `oind` of a `Call` node: the callable's declared
output sparsity at that index (spec §4.2, body not under src/). -/
def Call.sparsity (fcn : Function) (oind : Nat) : Sparsity :=
  fcn.sp_out.getD oind default

/-- Modelled from the spec: body of `Call::create` is not under src/.
Validates that the callable is initialized and the argument count equals
the callable's declared input count; projects each argument to the declared
input sparsity at its position; returns one output-view graph value per
callable output, each carrying its output index. -/
def Call.create (fcn : Function) (arg : List MX) : Except String (List MX) :=
  if fcn.isInit = false then .error "function not initialized"
  else if arg.length ≠ fcn.sp_in.length then .error "argument count mismatch"
  else
    match projectArgs 0 fcn.sp_in arg with
    | .error e => .error e
    | .ok parg => .ok ((List.range fcn.sp_out.length).map (fun i => MX.callOutput fcn parg i))

/-- The data members of a constructed `Call` node: the owned callable
handle `fcn_` (call.hpp line 136) and the projected argument graph-values
held through the `MultipleOutput` base. -/
structure CallNode where
  fcn_ : Function
  arg : List MX

/-- Embedded from the source (call.hpp line 105):
`virtual int numFunctions() const {return 1;}`. -/
def Call.numFunctions (_node : CallNode) : Int := 1

/-- Embedded from the source (call.hpp line 108):
`virtual Function& getFunction(int i) { return fcn_;}` — the body returns
the owned callable `fcn_` and never reads the index. -/
def Call.getFunction (node : CallNode) (_i : Int) : Function := node.fcn_

/-- Modelled from the spec: the callable handle's graph-level call
primitive over expression-graph values (spec 6), which builds a call node;
it is realized by `Call::create`. -/
def Function.call (fcn : Function) (arg : List MX) : Except String (List MX) :=
  Call.create fcn arg

/-- Modelled from the spec: body of `Call::evalMX` is not under src/.
Given already-evaluated argument graph-values, it replaces the node by
invoking the callable through the graph-level call primitive again. -/
def Call.evalMX (node : CallNode) (arg : List MX) : Except String (List MX) :=
  Function.call node.fcn_ arg

/-- Split a flat list into consecutive blocks of `k` elements (the inverse
of stacking `k`-element blocks). -/
def chunkList {α : Type} : Nat → List α → List (List α)
  | _, [] => []
  | 0, _ :: _ => []
  | k + 1, x :: xs => ((x :: xs).take (k + 1)) :: chunkList (k + 1) (xs.drop k)
termination_by _ l => l.length
decreasing_by
  simp only [List.length_drop, List.length_cons]
  omega

/-- A differentiable wrapped callable: the underlying handle together with
its forward-sensitivity semantics `fwd` (arguments, one seed set ↦ one
sensitivity value per output), the contract delegated to the wrapped
function's own derivative generation (spec 1/4.2). -/
structure FwdCallable where
  base : Function
  fwd : List MX → List MX → List MX

/-- Modelled from the spec: the synthesized forward-seed callable of
multiplicity `fseed.length` (`deriveForward`), invoked once with the
original arguments followed by the stacked seed sets; its output list is
the stacked per-seed-set sensitivity blocks. -/
def derForwardOut (c : FwdCallable) (arg : List MX) (fseed : List (List MX)) : List MX :=
  (fseed.map (c.fwd arg)).flatten

/-- Modelled from the spec: body of `Call::evalFwd` is not under src/.
Obtains the forward-seed callable sized to the number of seed sets, invokes
it once, and splits its outputs back into per-seed-set, per-output
sensitivity values. -/
def Call.evalFwd (c : FwdCallable) (arg : List MX) (fseed : List (List MX)) :
    List (List MX) :=
  chunkList (Call.nout c.base) (derForwardOut c arg fseed)

/-- A differentiable wrapped callable for the numeric forward/adjoint
consistency property: `nin` stacked scalar inputs, `nout` stacked scalar
outputs, and the Jacobian of the outputs with respect to the inputs at each
argument set.  Exact integer arithmetic stands in for floating-point values
(the identity then holds exactly, hence within any tolerance). -/
structure DiffCallable where
  nin : Nat
  nout : Nat
  jacAt : (Fin nin → Int) → Matrix (Fin nout) (Fin nin) Int

/-- Modelled from the spec: the forward-mode sensitivities `Call::evalFwd`
produces at argument set `x` for one forward seed direction `v` — the
synthesized forward-seed callable computes the Jacobian action `J·v`
(spec 4.2, body not under src/). -/
def Call.evalFwdSens (c : DiffCallable) (x : Fin c.nin → Int) (v : Fin c.nin → Int) :
    Fin c.nout → Int :=
  (c.jacAt x).mulVec v

/-- Modelled from the spec: the adjoint-mode sensitivities `Call::evalAdj`
produces at argument set `x` for one adjoint seed `w` — the synthesized
adjoint-seed callable computes the transposed Jacobian action `Jᵀ·w`
(spec 4.2, body not under src/). -/
def Call.evalAdjSens (c : DiffCallable) (x : Fin c.nin → Int) (w : Fin c.nout → Int) :
    Fin c.nin → Int :=
  (c.jacAt x).transpose.mulVec w

/-- One dependency bit-vector (`bvec_t`) per stored element of a buffer:
each `Nat` is a bitmask whose set bits mark the upstream seeds the element
depends on. -/
abbrev BVec := List Nat

/-- One bit-vector buffer per argument (or per output) of the node. -/
abbrev BVecs := List BVec

/-- Bitmask stored for element `e` of buffer `i` (0 outside the buffers). -/
def bvGet (bufs : BVecs) (i e : Nat) : Nat := (bufs.getD i []).getD e 0

/-- Modelled from the spec: the callable's adjoint bit-sparsity primitive
accumulates, into input element `(i, e)`, the OR of the marks on every
output element that `(i, e)` influences according to the dependency
relation `deps`. -/
def adjContribDeps (deps : List DepEntry) (res : BVecs) (i e : Nat) : Nat :=
  deps.foldr
    (fun d acc =>
      if d.inIdx = i ∧ d.inElem = e then bvGet res d.outIdx d.outElem ||| acc else acc)
    0

/-- Adjoint contribution of the marked outputs to input element `(i, e)`
for the node's own callable. -/
def adjContrib (fcn : Function) (res : BVecs) (i e : Nat) : Nat :=
  adjContribDeps fcn.dep res i e

/-- Output buffers where only output `o` keeps its marks and every sibling
output is zeroed (used to state per-output propagation). -/
def restrictOut (res : BVecs) (o : Nat) : BVecs :=
  (List.range res.length).map
    (fun o2 => if o2 = o then res.getD o2 [] else (res.getD o2 []).map (fun _ => 0))

/-- Modelled from the spec: the argument side of `Call::spAdj` (body not
under src/): every argument bit-vector element is OR-accumulated (never
overwritten) with the dependency contribution of the marked outputs. -/
def Call.spAdjArg (fcn : Function) (arg res : BVecs) : BVecs :=
  (List.range arg.length).map
    (fun i =>
      (List.range (arg.getD i []).length).map
        (fun e => bvGet arg i e ||| adjContrib fcn res i e))

/-- Modelled from the spec: body of `Call::spAdj` is not under src/.
Returns the accumulated argument bit-vectors and the consumed output
bit-vectors, which are cleared on return. -/
def Call.spAdj (fcn : Function) (arg res : BVecs) : BVecs × BVecs :=
  (Call.spAdjArg fcn arg res, res.map (fun r => r.map (fun _ => 0)))

/-- A concrete 1x1 dense sparsity used by witness instantiations. -/
def spW : Sparsity := ⟨1, 1, [(0, 0)]⟩

/-- A concrete 1x1 sparsity with no structural nonzeros (same total size as
`spW`, different pattern). -/
def spW0 : Sparsity := ⟨1, 1, []⟩

/-- A concrete initialized one-input one-output callable used by witness
instantiations. -/
def fcnW : Function := ⟨true, [spW], [spW], 0, [⟨0, 0, 0, 0⟩]⟩

/-- A concrete differentiable callable used by witness instantiations: its
forward-sensitivity semantics returns one value per output. -/
def fwdCW : FwdCallable := ⟨fcnW, fun _ _ => [MX.sym 9 spW]⟩

/-- A concrete already-copied map used by witness instantiations. -/
def m0W : List (MX × MX) := [(MX.sym 0 spW, MX.sym 5 spW)]

/-! ### Helper lemmas -/

theorem projectArg_ok_sparsity {x y : MX} {sp : Sparsity} {i : Nat}
    (h : GenericCall.projectArg x sp i = .ok y) : y.sparsity = sp := by
  unfold GenericCall.projectArg at h
  by_cases h1 : x.sparsity = sp
  · simp only [h1, if_pos rfl] at h
    cases h
    exact h1
  · rw [if_neg h1] at h
    by_cases h2 : x.sparsity.numel = sp.numel
    · rw [if_pos h2] at h
      cases h
      rfl
    · rw [if_neg h2] at h
      cases h

theorem projectArg_ok_iff {x : MX} {sp : Sparsity} {i : Nat} :
    (∃ y, GenericCall.projectArg x sp i = .ok y) ↔ x.sparsity.numel = sp.numel := by
  unfold GenericCall.projectArg
  by_cases h1 : x.sparsity = sp
  · simp [h1]
  · rw [if_neg h1]
    by_cases h2 : x.sparsity.numel = sp.numel
    · simp [h2]
    · simp [h2]

theorem projectArgs_ok_length {sps : List Sparsity} :
    ∀ {i : Nat} {xs ys : List MX}, projectArgs i sps xs = .ok ys →
      ys.length = sps.length := by
  induction sps with
  | nil =>
    intro i xs ys h
    cases xs with
    | nil => simp only [projectArgs] at h; cases h; rfl
    | cons a as => simp only [projectArgs] at h; cases h
  | cons sp sps ih =>
    intro i xs ys h
    cases xs with
    | nil => simp only [projectArgs] at h; cases h
    | cons a as =>
      simp only [projectArgs] at h
      split at h
      · cases h
        simp [ih (by assumption)]
      · cases h
      · cases h

theorem projectArgs_ok_sparsity {sps : List Sparsity} :
    ∀ {i : Nat} {xs ys : List MX}, projectArgs i sps xs = .ok ys →
      ∀ j (hj : j < ys.length) (hj' : j < sps.length),
        (ys.get ⟨j, hj⟩).sparsity = sps.get ⟨j, hj'⟩ := by
  induction sps with
  | nil =>
    intro i xs ys h j hj hj'
    exact absurd hj' (Nat.not_lt_zero j)
  | cons sp sps ih =>
    intro i xs ys h j hj hj'
    cases xs with
    | nil => simp only [projectArgs] at h; cases h
    | cons a as =>
      simp only [projectArgs] at h
      split at h
      case _ y ys2 hp hq =>
        cases h
        cases j with
        | zero => exact projectArg_ok_sparsity hp
        | succ k =>
          exact ih hq k (Nat.lt_of_succ_lt_succ hj) (Nat.lt_of_succ_lt_succ hj')
      · cases h
      · cases h

theorem projectArgs_ok_iff {sps : List Sparsity} :
    ∀ {i : Nat} {xs : List MX}, xs.length = sps.length →
      ((∃ ys, projectArgs i sps xs = .ok ys) ↔
        ∀ j (hj : j < xs.length) (hj' : j < sps.length),
          (xs.get ⟨j, hj⟩).sparsity.numel = (sps.get ⟨j, hj'⟩).numel) := by
  induction sps with
  | nil =>
    intro i xs hlen
    cases xs with
    | nil =>
      simp only [projectArgs]
      constructor
      · intro _ j hj _
        exact absurd hj (Nat.not_lt_zero j)
      · intro _
        exact ⟨[], rfl⟩
    | cons a as => cases hlen
  | cons sp sps ih =>
    intro i xs hlen
    cases xs with
    | nil => cases hlen
    | cons a as =>
      have hlen' : as.length = sps.length := by
        simpa using hlen
      constructor
      · rintro ⟨ys, h⟩
        intro j hj hj'
        simp only [projectArgs] at h
        split at h
        case _ y ys2 hp hq =>
          cases j with
          | zero => exact projectArg_ok_iff.mp ⟨y, hp⟩
          | succ k =>
            exact (ih hlen').mp ⟨ys2, hq⟩ k (Nat.lt_of_succ_lt_succ hj)
              (Nat.lt_of_succ_lt_succ hj')
        · cases h
        · cases h
      · intro hall
        have h0 : a.sparsity.numel = sp.numel := hall 0 (Nat.succ_pos _) (Nat.succ_pos _)
        obtain ⟨y, hp⟩ := (projectArg_ok_iff (i := i)).mpr h0
        have hrest : ∀ j (hj : j < as.length) (hj' : j < sps.length),
            (as.get ⟨j, hj⟩).sparsity.numel = (sps.get ⟨j, hj'⟩).numel := by
          intro j hj hj'
          exact hall (j + 1) (Nat.succ_lt_succ hj) (Nat.succ_lt_succ hj')
        obtain ⟨ys', hq⟩ := (ih (i := i + 1) hlen').mpr hrest
        exact ⟨y :: ys', by simp only [projectArgs, hp, hq]⟩

theorem exists_error_iff_not_ok {α : Type} (r : Except String α) :
    (∃ e, r = .error e) ↔ ¬∃ v, r = .ok v := by
  cases r with
  | error e => simp
  | ok v => simp

/-! ### Claim theorems -/

/-- C1: for every initialized callable and every argument list accepted by
construction, `Call::create` returns exactly `nout` output graph-values,
and the i-th returned value's sparsity equals the callable's declared
output sparsity at index i as reported by `Call::sparsity(i)`. -/
theorem C1_create_output_count_and_sparsity (fcn : Function) (arg out : List MX)
    (h : Call.create fcn arg = .ok out) :
    out.length = Call.nout fcn ∧
    ∀ i (hi : i < out.length), (out.get ⟨i, hi⟩).sparsity = Call.sparsity fcn i := by
  unfold Call.create at h
  by_cases h1 : fcn.isInit = false
  · rw [if_pos h1] at h; cases h
  · rw [if_neg h1] at h
    by_cases h2 : arg.length ≠ fcn.sp_in.length
    · rw [if_pos h2] at h; cases h
    · rw [if_neg h2] at h
      cases hq : projectArgs 0 fcn.sp_in arg with
      | error e => rw [hq] at h; cases h
      | ok parg =>
        rw [hq] at h
        cases h
        constructor
        · simp [Call.nout]
        · intro i hi
          simp only [List.length_map, List.length_range] at hi
          simp [List.getElem_map, List.getElem_range, MX.sparsity, Call.sparsity]

theorem C1_create_output_count_and_sparsity_witness :
    Call.create fcnW [MX.sym 0 spW] = .ok [MX.callOutput fcnW [MX.sym 0 spW] 0] ∧
    [MX.callOutput fcnW [MX.sym 0 spW] 0].length = Call.nout fcnW ∧
    ∀ i (hi : i < [MX.callOutput fcnW [MX.sym 0 spW] 0].length),
      ([MX.callOutput fcnW [MX.sym 0 spW] 0].get ⟨i, hi⟩).sparsity = Call.sparsity fcnW i :=
  ⟨rfl, C1_create_output_count_and_sparsity fcnW [MX.sym 0 spW] _ rfl⟩

/-- C5: projecting a graph-value whose sparsity already equals the target
returns the value itself (no new node), and for any value accepted by
projection, projecting the result again to the same target returns it
unchanged (projection is idempotent). -/
theorem C5_projectArg_idempotent (x : MX) (sp : Sparsity) (i : Nat) :
    (x.sparsity = sp → GenericCall.projectArg x sp i = .ok x) ∧
    (∀ y, GenericCall.projectArg x sp i = .ok y →
      GenericCall.projectArg y sp i = .ok y) := by
  constructor
  · intro h
    unfold GenericCall.projectArg
    rw [if_pos h]
  · intro y h
    have hy : y.sparsity = sp := projectArg_ok_sparsity h
    unfold GenericCall.projectArg
    rw [if_pos hy]

theorem C5_projectArg_idempotent_witness :
    ((MX.sym 0 spW).sparsity = spW ∧
      GenericCall.projectArg (MX.sym 0 spW) spW 0 = .ok (MX.sym 0 spW)) ∧
    (GenericCall.projectArg (MX.sym 0 spW0) spW 0 = .ok (MX.project (MX.sym 0 spW0) spW) ∧
      GenericCall.projectArg (MX.project (MX.sym 0 spW0) spW) spW 0 =
        .ok (MX.project (MX.sym 0 spW0) spW)) :=
  ⟨⟨rfl, (C5_projectArg_idempotent (MX.sym 0 spW) spW 0).1 rfl⟩,
    ⟨rfl, (C5_projectArg_idempotent (MX.sym 0 spW0) spW 0).2
      (MX.project (MX.sym 0 spW0) spW) rfl⟩⟩

/-- C6: `Call::create` fails exactly when the callable is uninitialized,
the argument count differs from the declared input count, or some
argument's total size is incompatible with the declared input sparsity at
that position; for accepted inputs each argument is projected to the
declared input sparsity before the node is built. -/
theorem C6_create_validation (fcn : Function) (arg : List MX) :
    ((∃ e, Call.create fcn arg = .error e) ↔
      (fcn.isInit = false ∨ arg.length ≠ fcn.sp_in.length ∨
        ∃ i, ∃ (hi : i < arg.length) (hi' : i < fcn.sp_in.length),
          (arg.get ⟨i, hi⟩).sparsity.numel ≠ (fcn.sp_in.get ⟨i, hi'⟩).numel)) ∧
    (∀ out, Call.create fcn arg = .ok out →
      ∃ parg, parg.length = fcn.sp_in.length ∧
        (∀ j (hj : j < parg.length) (hj' : j < fcn.sp_in.length),
          (parg.get ⟨j, hj⟩).sparsity = fcn.sp_in.get ⟨j, hj'⟩) ∧
        ∀ i (hi : i < out.length), out.get ⟨i, hi⟩ = MX.callOutput fcn parg i) := by
  constructor
  · rw [exists_error_iff_not_ok]
    unfold Call.create
    by_cases h1 : fcn.isInit = false
    · simp [h1]
    · rw [if_neg h1]
      by_cases h2 : arg.length ≠ fcn.sp_in.length
      · simp [h2]
      · rw [if_neg h2]
        push_neg at h2
        constructor
        · intro hno
          right; right
          by_contra hall
          push_neg at hall
          have hok : ∃ ys, projectArgs 0 fcn.sp_in arg = .ok ys := by
            refine (projectArgs_ok_iff h2).mpr ?_
            intro j hj hj'
            exact hall j hj hj'
          obtain ⟨ys, hys⟩ := hok
          rw [hys] at hno
          exact hno ⟨_, rfl⟩
        · intro hbad
          rcases hbad with hbad | hbad | ⟨i, hi, hi', hne⟩
          · exact absurd hbad h1
          · exact absurd h2 hbad
          · rintro ⟨v, hv⟩
            cases hys : projectArgs 0 fcn.sp_in arg with
            | error e => rw [hys] at hv; cases hv
            | ok ys =>
              exact hne ((projectArgs_ok_iff h2).mp ⟨ys, hys⟩ i hi hi')
  · intro out h
    unfold Call.create at h
    by_cases h1 : fcn.isInit = false
    · rw [if_pos h1] at h; cases h
    · rw [if_neg h1] at h
      by_cases h2 : arg.length ≠ fcn.sp_in.length
      · rw [if_pos h2] at h; cases h
      · rw [if_neg h2] at h
        cases hys : projectArgs 0 fcn.sp_in arg with
        | error e => rw [hys] at h; cases h
        | ok parg =>
          rw [hys] at h
          cases h
          refine ⟨parg, projectArgs_ok_length hys, projectArgs_ok_sparsity hys, ?_⟩
          intro i hi
          simp only [List.length_map, List.length_range] at hi
          simp [List.getElem_map, List.getElem_range]

theorem C6_create_validation_witness :
    ((∃ e, Call.create fcnW ([] : List MX) = .error e) ∧
      ([] : List MX).length ≠ fcnW.sp_in.length) ∧
    (Call.create fcnW [MX.sym 0 spW] = .ok [MX.callOutput fcnW [MX.sym 0 spW] 0] ∧
      ∃ parg : List MX, parg.length = fcnW.sp_in.length ∧
        (∀ j (hj : j < parg.length) (hj' : j < fcnW.sp_in.length),
          (parg.get ⟨j, hj⟩).sparsity = fcnW.sp_in.get ⟨j, hj'⟩) ∧
        ∀ i (hi : i < [MX.callOutput fcnW [MX.sym 0 spW] 0].length),
          [MX.callOutput fcnW [MX.sym 0 spW] 0].get ⟨i, hi⟩ =
            MX.callOutput fcnW parg i) :=
  ⟨⟨(C6_create_validation fcnW []).1.mpr (Or.inr (Or.inl (by decide))), by decide⟩,
    ⟨rfl, (C6_create_validation fcnW [MX.sym 0 spW]).2
      [MX.callOutput fcnW [MX.sym 0 spW] 0] (by rfl)⟩⟩

theorem create_ok_length {fcn : Function} {arg out : List MX}
    (h : Call.create fcn arg = .ok out) : out.length = Call.nout fcn := by
  unfold Call.create at h
  by_cases h1 : fcn.isInit = false
  · rw [if_pos h1] at h; cases h
  · rw [if_neg h1] at h
    by_cases h2 : arg.length ≠ fcn.sp_in.length
    · rw [if_pos h2] at h; cases h
    · rw [if_neg h2] at h
      cases hq : projectArgs 0 fcn.sp_in arg with
      | error e => rw [hq] at h; cases h
      | ok parg =>
        rw [hq] at h
        cases h
        simp [Call.nout]

/-- C8: for every list of already-evaluated argument graph-values,
`Call::evalMX` produces the list of output graph-values that `Call::create`
would produce for those same arguments (one per callable output). -/
theorem C8_evalMX_equiv_create (node : CallNode) (arg : List MX) :
    Call.evalMX node arg = Call.create node.fcn_ arg ∧
    ∀ out, Call.evalMX node arg = .ok out → out.length = Call.nout node.fcn_ := by
  constructor
  · rfl
  · intro out h
    exact create_ok_length h

theorem C8_evalMX_equiv_create_witness :
    Call.evalMX ⟨fcnW, [MX.sym 0 spW]⟩ [MX.sym 1 spW] =
      Call.create fcnW [MX.sym 1 spW] ∧
    [MX.callOutput fcnW [MX.sym 1 spW] 0].length = Call.nout fcnW :=
  ⟨(C8_evalMX_equiv_create ⟨fcnW, [MX.sym 0 spW]⟩ [MX.sym 1 spW]).1,
    (C8_evalMX_equiv_create ⟨fcnW, [MX.sym 0 spW]⟩ [MX.sym 1 spW]).2
      [MX.callOutput fcnW [MX.sym 1 spW] 0] (by rfl)⟩

/-- C9: `numFunctions()` returns exactly 1, and for every index in
`[0, numFunctions())` the function reference returned by `getFunction` is
the single owned callable handle `fcn_`. -/
theorem C9_numFunctions_getFunction (node : CallNode) :
    Call.numFunctions node = 1 ∧
    ∀ i : Int, 0 ≤ i → i < Call.numFunctions node →
      Call.getFunction node i = node.fcn_ := by
  exact ⟨rfl, fun i _ _ => rfl⟩

theorem C9_numFunctions_getFunction_witness :
    Call.numFunctions ⟨fcnW, []⟩ = 1 ∧
    ((0 : Int) ≤ 0 ∧ (0 : Int) < Call.numFunctions ⟨fcnW, []⟩ ∧
      Call.getFunction ⟨fcnW, []⟩ 0 = fcnW) :=
  ⟨(C9_numFunctions_getFunction ⟨fcnW, []⟩).1,
    ⟨le_refl 0, by decide,
      (C9_numFunctions_getFunction ⟨fcnW, []⟩).2 0 (le_refl 0) (by decide)⟩⟩

/-- C10: `getFunction` is total in its index argument: for every integer
index, including negative ones and ones at or above `numFunctions()`, it
returns the owned callable `fcn_`; the index is ignored entirely and no
bounds check is performed. -/
theorem C10_getFunction_ignores_index (node : CallNode) (i : Int) :
    Call.getFunction node i = node.fcn_ := rfl

theorem getD_range_map {α : Type} (n i : Nat) (f : Nat → α) (d : α) :
    (((List.range n).map f).getD i d) = if i < n then f i else d := by
  by_cases h : i < n
  · rw [if_pos h]
    rw [List.getD_eq_getElem _ d (by simpa using h)]
    simp
  · rw [if_neg h]
    exact List.getD_eq_default _ _ (by simpa using Nat.le_of_not_lt h)

theorem bvGet_zero_of_len_le {bufs : BVecs} {i : Nat} (e : Nat)
    (h : bufs.length ≤ i) : bvGet bufs i e = 0 := by
  unfold bvGet
  rw [List.getD_eq_default _ _ h]
  simp

theorem bvGet_zero_of_row_le {bufs : BVecs} {i e : Nat}
    (h : (bufs.getD i []).length ≤ e) : bvGet bufs i e = 0 := by
  unfold bvGet
  exact List.getD_eq_default _ _ h

theorem bvGet_spAdjArg (fcn : Function) (arg res : BVecs) (i e : Nat) :
    bvGet (Call.spAdjArg fcn arg res) i e =
      if i < arg.length ∧ e < (arg.getD i []).length then
        bvGet arg i e ||| adjContrib fcn res i e
      else 0 := by
  unfold Call.spAdjArg bvGet
  rw [getD_range_map]
  by_cases h1 : i < arg.length
  · rw [if_pos h1, getD_range_map]
    by_cases h2 : e < (arg.getD i []).length
    · rw [if_pos h2, if_pos ⟨h1, h2⟩]
    · rw [if_neg h2, if_neg (fun hc => h2 hc.2)]
  · rw [if_neg h1, if_neg (fun hc => h1 hc.1)]
    simp

theorem bvGet_restrictOut (res : BVecs) (o o2 f : Nat) :
    bvGet (restrictOut res o) o2 f =
      if o2 < res.length ∧ o2 = o then bvGet res o2 f else 0 := by
  unfold restrictOut bvGet
  rw [getD_range_map]
  by_cases h1 : o2 < res.length
  · rw [if_pos h1]
    by_cases h2 : o2 = o
    · rw [if_pos h2, if_pos ⟨h1, h2⟩]
    · rw [if_neg h2, if_neg (fun hc => h2 hc.2)]
      by_cases h3 : f < (res.getD o2 []).length
      · rw [List.getD_eq_getElem _ 0 (by simpa using h3)]
        simp
      · rw [List.getD_eq_default _ _ (by simpa using Nat.le_of_not_lt h3)]
  · rw [if_neg h1, if_neg (fun hc => h1 hc.1)]
    simp

theorem foldr_lor_zero (l : List Nat) (f : Nat → Nat) (b : Nat)
    (h : ∀ o ∈ l, f o = 0) : l.foldr (fun o acc => f o ||| acc) b = b := by
  induction l with
  | nil => rfl
  | cons x xs ih =>
    simp only [List.foldr_cons]
    rw [h x (List.mem_cons_self x xs), ih (fun o ho => h o (List.mem_cons_of_mem x ho))]
    simp

theorem foldr_lor_single (n v c b : Nat) :
    (List.range n).foldr (fun o acc => (if v = o then c else 0) ||| acc) b =
      if v < n then c ||| b else b := by
  induction n generalizing b with
  | zero => simp
  | succ m ih =>
    rw [List.range_succ, List.foldr_append]
    simp only [List.foldr_cons, List.foldr_nil]
    by_cases hv : v = m
    · rw [if_pos hv, ih]
      rw [if_neg (by omega), if_pos (by omega)]
    · rw [if_neg hv, ih]
      by_cases hlt : v < m
      · rw [if_pos hlt, if_pos (by omega)]
        simp
      · rw [if_neg hlt, if_neg (by omega)]
        simp

theorem foldr_lor_dist (l : List Nat) (f g : Nat → Nat) :
    l.foldr (fun o acc => (f o ||| g o) ||| acc) 0 =
      (l.foldr (fun o acc => f o ||| acc) 0) ||| (l.foldr (fun o acc => g o ||| acc) 0) := by
  induction l with
  | nil => simp
  | cons x xs ih =>
    simp only [List.foldr_cons, ih]
    generalize l1 : List.foldr (fun o acc => f o ||| acc) 0 xs = A
    generalize l2 : List.foldr (fun o acc => g o ||| acc) 0 xs = B
    rw [Nat.lor_assoc, Nat.lor_assoc]
    congr 1
    rw [← Nat.lor_assoc, ← Nat.lor_assoc, Nat.lor_comm (g x) A]

theorem foldr_lor_base (l : List Nat) (a : Nat) (c : Nat → Nat) :
    l.foldr (fun o acc => (a ||| c o) ||| acc) a =
      a ||| l.foldr (fun o acc => c o ||| acc) 0 := by
  induction l with
  | nil => simp
  | cons x xs ih =>
    simp only [List.foldr_cons, ih]
    generalize List.foldr (fun o acc => c o ||| acc) 0 xs = B
    rw [Nat.lor_assoc]
    rw [← Nat.lor_assoc (c x) a B, Nat.lor_comm (c x) a, Nat.lor_assoc a (c x) B,
      ← Nat.lor_assoc a a (c x ||| B)]
    simp

theorem foldr_restrict_contrib (deps : List DepEntry) (res : BVecs) (i e : Nat) :
    (List.range res.length).foldr
      (fun o acc => adjContribDeps deps (restrictOut res o) i e ||| acc) 0 =
      adjContribDeps deps res i e := by
  induction deps with
  | nil =>
    unfold adjContribDeps
    simp only [List.foldr_nil]
    exact foldr_lor_zero _ _ _ (fun o _ => rfl)
  | cons d ds ih =>
    by_cases hd : d.inIdx = i ∧ d.inElem = e
    · have hstep : ∀ r : BVecs, adjContribDeps (d :: ds) r i e =
          bvGet r d.outIdx d.outElem ||| adjContribDeps ds r i e := by
        intro r
        unfold adjContribDeps
        simp only [List.foldr_cons]
        rw [if_pos hd]
      simp only [hstep]
      rw [foldr_lor_dist _ (fun o => bvGet (restrictOut res o) d.outIdx d.outElem)
        (fun o => adjContribDeps ds (restrictOut res o) i e), ih]
      congr 1
      by_cases hv : d.outIdx < res.length
      · have : ∀ o : Nat, bvGet (restrictOut res o) d.outIdx d.outElem =
            if d.outIdx = o then bvGet res d.outIdx d.outElem else 0 := by
          intro o
          rw [bvGet_restrictOut]
          by_cases ho : d.outIdx = o
          · rw [if_pos ho, if_pos ⟨hv, ho⟩]
          · rw [if_neg ho, if_neg (fun hc => ho hc.2)]
        simp only [this]
        rw [foldr_lor_single res.length d.outIdx (bvGet res d.outIdx d.outElem) 0,
          if_pos hv]
        simp
      · have : ∀ o ∈ List.range res.length,
            bvGet (restrictOut res o) d.outIdx d.outElem = 0 := by
          intro o _
          rw [bvGet_restrictOut]
          rw [if_neg (fun hc => hv hc.1)]
        rw [foldr_lor_zero _ _ _ this]
        rw [bvGet_zero_of_len_le d.outElem (Nat.le_of_not_lt hv)]
    · have hstep : ∀ r : BVecs, adjContribDeps (d :: ds) r i e =
          adjContribDeps ds r i e := by
        intro r
        unfold adjContribDeps
        simp only [List.foldr_cons]
        rw [if_neg hd]
      simp only [hstep]
      exact ih

/-- C2: on every invocation of `Call::spAdj`, bits already set in the
argument bit-vectors remain set (accumulation is bitwise OR, never
overwrite); the consumed output bit-vectors are cleared on return; and
propagating all sibling outputs in one pass equals the bitwise OR of
propagating each output individually. -/
theorem C2_spAdj_accumulates_clears_and_decomposes (fcn : Function) (arg res : BVecs) :
    (∀ i e k, (bvGet arg i e).testBit k = true →
      (bvGet (Call.spAdj fcn arg res).1 i e).testBit k = true) ∧
    (∀ o f, bvGet (Call.spAdj fcn arg res).2 o f = 0) ∧
    (∀ i e, bvGet (Call.spAdj fcn arg res).1 i e =
      (List.range res.length).foldr
        (fun o acc => bvGet (Call.spAdjArg fcn arg (restrictOut res o)) i e ||| acc)
        (bvGet arg i e)) := by
  have hzero : ∀ i e, ¬(i < arg.length ∧ e < (arg.getD i []).length) →
      bvGet arg i e = 0 := by
    intro i e hc
    by_cases h1 : i < arg.length
    · have h2 : (arg.getD i []).length ≤ e := by
        by_contra h3
        exact hc ⟨h1, Nat.lt_of_not_le h3⟩
      exact bvGet_zero_of_row_le h2
    · exact bvGet_zero_of_len_le e (Nat.le_of_not_lt h1)
  refine ⟨?_, ?_, ?_⟩
  · intro i e k hk
    show (bvGet (Call.spAdjArg fcn arg res) i e).testBit k = true
    rw [bvGet_spAdjArg]
    by_cases hin : i < arg.length ∧ e < (arg.getD i []).length
    · rw [if_pos hin]
      simp [Nat.testBit_lor, hk]
    · rw [hzero i e hin] at hk
      simp at hk
  · intro o f
    show bvGet (res.map (fun r => r.map (fun _ => 0))) o f = 0
    unfold bvGet
    by_cases h1 : o < res.length
    · rw [List.getD_eq_getElem _ [] (by simpa using h1)]
      simp only [List.getElem_map]
      by_cases h2 : f < (res[o]).length
      · rw [List.getD_eq_getElem _ 0 (by simpa using h2)]
        simp
      · rw [List.getD_eq_default _ _ (by simpa using Nat.le_of_not_lt h2)]
    · have houter : (res.map (fun r => r.map (fun _ => 0))).getD o [] = ([] : BVec) :=
        List.getD_eq_default _ _ (by simpa using Nat.le_of_not_lt h1)
      rw [houter]
      simp
  · intro i e
    show bvGet (Call.spAdjArg fcn arg res) i e = _
    by_cases hin : i < arg.length ∧ e < (arg.getD i []).length
    · have hterm : ∀ o : Nat, bvGet (Call.spAdjArg fcn arg (restrictOut res o)) i e =
          bvGet arg i e ||| adjContrib fcn (restrictOut res o) i e := by
        intro o
        rw [bvGet_spAdjArg, if_pos hin]
      simp only [hterm]
      rw [bvGet_spAdjArg, if_pos hin]
      rw [foldr_lor_base (List.range res.length) (bvGet arg i e)
        (fun o => adjContrib fcn (restrictOut res o) i e)]
      unfold adjContrib
      rw [foldr_restrict_contrib]
    · have hterm : ∀ o ∈ List.range res.length,
          bvGet (Call.spAdjArg fcn arg (restrictOut res o)) i e = 0 := by
        intro o _
        rw [bvGet_spAdjArg, if_neg hin]
      rw [foldr_lor_zero _ _ _ hterm]
      rw [bvGet_spAdjArg, if_neg hin, hzero i e hin]

theorem C2_spAdj_accumulates_clears_and_decomposes_witness :
    ((bvGet [[2]] 0 0).testBit 1 = true ∧
      (bvGet (Call.spAdj fcnW [[2]] [[5]]).1 0 0).testBit 1 = true) ∧
    bvGet (Call.spAdj fcnW [[2]] [[5]]).2 0 0 = 0 ∧
    bvGet (Call.spAdj fcnW [[2]] [[5]]).1 0 0 =
      (List.range ([[5]] : BVecs).length).foldr
        (fun o acc => bvGet (Call.spAdjArg fcnW [[2]] (restrictOut [[5]] o)) 0 0 ||| acc)
        (bvGet [[2]] 0 0) :=
  ⟨⟨by decide,
      (C2_spAdj_accumulates_clears_and_decomposes fcnW [[2]] [[5]]).1 0 0 1 (by decide)⟩,
    (C2_spAdj_accumulates_clears_and_decomposes fcnW [[2]] [[5]]).2.1 0 0,
    (C2_spAdj_accumulates_clears_and_decomposes fcnW [[2]] [[5]]).2.2 0 0⟩

theorem chunkList_eq_cons {α : Type} (k : Nat) (hk : 0 < k) (l : List α)
    (hl : l ≠ []) : chunkList k l = l.take k :: chunkList k (l.drop k) := by
  cases k with
  | zero => exact absurd hk (by omega)
  | succ m =>
    cases l with
    | nil => exact absurd rfl hl
    | cons x xs =>
      rw [chunkList]
      rw [List.drop_succ_cons]

theorem chunkList_single {α : Type} (k : Nat) (hk : 0 < k) (l : List α)
    (h : l.length = k) : chunkList k l = [l] := by
  have hl : l ≠ [] := by
    intro he
    rw [he] at h
    simp at h
    omega
  rw [chunkList_eq_cons k hk l hl]
  rw [List.take_of_length_le (by omega), List.drop_eq_nil_of_le (by omega)]
  rw [chunkList]

theorem chunkList_flatten_map {α β : Type} (k : Nat) (hk : 0 < k)
    (f : β → List α) (l : List β) (h : ∀ s ∈ l, (f s).length = k) :
    chunkList k (l.map f).flatten = l.map f := by
  induction l with
  | nil => simp only [List.map_nil, List.flatten_nil]; rw [chunkList]
  | cons s ss ih =>
    have hs : (f s).length = k := h s (List.mem_cons_self s ss)
    have hne : (f s) ++ (ss.map f).flatten ≠ [] := by
      intro he
      have : (f s) = [] := by
        cases hfs : f s with
        | nil => rfl
        | cons a as => rw [hfs] at he; cases he
      rw [this] at hs
      simp at hs
      omega
    simp only [List.map_cons, List.flatten_cons]
    rw [chunkList_eq_cons k hk _ hne]
    rw [← hs, List.take_left, List.drop_left, hs]
    rw [ih (fun t ht => h t (List.mem_cons_of_mem s ht))]

/-- C4: invoking `Call::evalFwd` once with `n` forward-seed sets yields,
for each seed set, sensitivities identical to those obtained by invoking
`evalFwd` `n` separate times with one seed set each. -/
theorem C4_evalFwd_batched (c : FwdCallable) (arg : List MX) (fseed : List (List MX))
    (hk : 0 < Call.nout c.base)
    (hlen : ∀ s ∈ fseed, (c.fwd arg s).length = Call.nout c.base) :
    Call.evalFwd c arg fseed =
      fseed.map (fun s => (Call.evalFwd c arg [s]).getD 0 []) := by
  unfold Call.evalFwd derForwardOut
  rw [chunkList_flatten_map _ hk _ _ hlen]
  apply List.map_congr_left
  intro s hs
  simp only [List.map_cons, List.map_nil, List.flatten_cons, List.flatten_nil,
    List.append_nil]
  rw [chunkList_single _ hk _ (hlen s hs)]
  rfl

theorem C4_evalFwd_batched_witness :
    0 < Call.nout fwdCW.base ∧
    (∀ s ∈ [[MX.sym 0 spW], [MX.sym 1 spW]],
      (fwdCW.fwd [MX.sym 2 spW] s).length = Call.nout fwdCW.base) ∧
    Call.evalFwd fwdCW [MX.sym 2 spW] [[MX.sym 0 spW], [MX.sym 1 spW]] =
      [[MX.sym 0 spW], [MX.sym 1 spW]].map
        (fun s => (Call.evalFwd fwdCW [MX.sym 2 spW] [s]).getD 0 []) :=
  ⟨Nat.zero_lt_one, fun _ _ => rfl,
    C4_evalFwd_batched fwdCW [MX.sym 2 spW] [[MX.sym 0 spW], [MX.sym 1 spW]]
      Nat.zero_lt_one (fun _ _ => rfl)⟩

/-- C3: for every differentiable wrapped callable, every argument set `x`,
every forward seed `v` and every adjoint seed `w`, the forward-mode
sensitivities produced by `Call::evalFwd` dotted with `w` equal the
adjoint-mode sensitivities produced by `Call::evalAdj` dotted with `v`
(the forward/reverse dot-product identity). -/
theorem C3_forward_adjoint_dot_identity (c : DiffCallable) (x v : Fin c.nin → Int)
    (w : Fin c.nout → Int) :
    Matrix.dotProduct (Call.evalFwdSens c x v) w =
      Matrix.dotProduct (Call.evalAdjSens c x w) v := by
  unfold Call.evalFwdSens Call.evalAdjSens
  rw [Matrix.dotProduct_comm, Matrix.dotProduct_mulVec, Matrix.mulVec_transpose]

theorem beq_callFcn {a x : MX} (h : MX.beq a x = true) :
    MX.callFcn a = MX.callFcn x := by
  cases a <;> cases x <;> simp_all [MX.beq, MX.callFcn]

theorem lookupCopy_callFcn {m : List (MX × MX)} {x y : MX} (hm : mapOk m)
    (h : lookupCopy m x = some y) : MX.callFcn y = MX.callFcn x := by
  induction m with
  | nil => simp [lookupCopy] at h
  | cons p rest ih =>
    obtain ⟨a, b⟩ := p
    rw [lookupCopy] at h
    by_cases hb : MX.beq a x = true
    · rw [if_pos hb] at h
      injection h with hby
      subst hby
      have h1 : MX.callFcn b = MX.callFcn a :=
        hm (a, b) (List.mem_cons_self _ _)
      exact h1.trans (beq_callFcn hb)
    · rw [if_neg hb] at h
      exact ih (fun q hq => hm q (List.mem_cons_of_mem _ hq)) h

mutual
theorem deepCopy_callFcn (m : List (MX × MX)) (x : MX) (hm : mapOk m) :
    MX.callFcn (deepCopy m x).1 = MX.callFcn x ∧ mapOk (deepCopy m x).2 := by
  cases x with
  | sym n sp =>
    rw [deepCopy]
    cases hl : lookupCopy m (MX.sym n sp) with
    | some y => exact ⟨lookupCopy_callFcn hm hl, hm⟩
    | none =>
      refine ⟨rfl, ?_⟩
      intro p hp
      cases hp with
      | head => rfl
      | tail _ hq => exact hm p hq
  | project a sp =>
    rw [deepCopy]
    cases hl : lookupCopy m (MX.project a sp) with
    | some y => exact ⟨lookupCopy_callFcn hm hl, hm⟩
    | none =>
      have hr := deepCopy_callFcn m a hm
      refine ⟨rfl, ?_⟩
      intro p hp
      cases hp with
      | head => rfl
      | tail _ hq => exact hr.2 p hq
  | callOutput fcn args oind =>
    rw [deepCopy]
    cases hl : lookupCopy m (MX.callOutput fcn args oind) with
    | some y => exact ⟨lookupCopy_callFcn hm hl, hm⟩
    | none =>
      have hr := deepCopyList_mapOk m args hm
      refine ⟨rfl, ?_⟩
      intro p hp
      cases hp with
      | head => rfl
      | tail _ hq => exact hr p hq
theorem deepCopyList_mapOk (m : List (MX × MX)) (xs : List MX) (hm : mapOk m) :
    mapOk (deepCopyList m xs).2 := by
  cases xs with
  | nil => rw [deepCopyList]; exact hm
  | cons a as =>
    rw [deepCopyList]
    exact deepCopyList_mapOk (deepCopy m a).2 as (deepCopy_callFcn m a hm).2
end

theorem deepCopy_lookup_hit (m : List (MX × MX)) (x y : MX)
    (h : lookupCopy m x = some y) : deepCopy m x = (y, m) := by
  cases x <;> (rw [deepCopy]; rw [h])

/-- C7: cloning keyed by the already-copied map preserves sharing: a node
already recorded in the map is reused as-is with no new copy and the map
unchanged (shared and diamond-shaped subgraphs are copied at most once,
keyed by original node identity), and the copies of two Call nodes that
reference the same callable handle both still reference that one handle
(the callable itself is never duplicated). -/
theorem C7_deepcopy_preserves_sharing (m : List (MX × MX)) (hm : mapOk m)
    (fcn : Function) (a1 a2 : List MX) (o1 o2 : Nat) :
    (∀ x y, lookupCopy m x = some y → deepCopy m x = (y, m)) ∧
    MX.callFcn (deepCopy m (MX.callOutput fcn a1 o1)).1 = some fcn ∧
    MX.callFcn
      (deepCopy (deepCopy m (MX.callOutput fcn a1 o1)).2 (MX.callOutput fcn a2 o2)).1
      = some fcn := by
  refine ⟨fun x y h => deepCopy_lookup_hit m x y h, ?_, ?_⟩
  · exact (deepCopy_callFcn m (MX.callOutput fcn a1 o1) hm).1
  · exact (deepCopy_callFcn (deepCopy m (MX.callOutput fcn a1 o1)).2
      (MX.callOutput fcn a2 o2)
      (deepCopy_callFcn m (MX.callOutput fcn a1 o1) hm).2).1

theorem C7_deepcopy_preserves_sharing_witness :
    mapOk m0W ∧
    (lookupCopy m0W (MX.sym 0 spW) = some (MX.sym 5 spW) ∧
      deepCopy m0W (MX.sym 0 spW) = (MX.sym 5 spW, m0W)) ∧
    MX.callFcn (deepCopy m0W (MX.callOutput fcnW [MX.sym 0 spW] 0)).1 = some fcnW ∧
    MX.callFcn
      (deepCopy (deepCopy m0W (MX.callOutput fcnW [MX.sym 0 spW] 0)).2
        (MX.callOutput fcnW [MX.sym 0 spW] 1)).1 = some fcnW := by
  have hm : mapOk m0W := by
    intro p hp
    rw [List.mem_singleton.mp hp]
    rfl
  have h := C7_deepcopy_preserves_sharing m0W hm fcnW [MX.sym 0 spW] [MX.sym 0 spW] 0 1
  exact ⟨hm, ⟨rfl, h.1 (MX.sym 0 spW) (MX.sym 5 spW) rfl⟩, h.2.1, h.2.2⟩

end CasadiCall
